import Mathlib

/-!
Shallow embedding of `src/wbso.py`, a command-line work-session logger.

The embedding models the two classes `Session` and `Sessions` (the ledger),
the time-resolution helper `time_to_datetime`, the ledger operations invoked
by the command dispatcher in `__main__`, and the `--export` aggregation
branch.  Python exceptions are modelled with `Except PyError`; an `.error`
result corresponds to an uncaught exception (the process aborts and the
ledger is not saved).  Python `datetime` values are modelled by the
`DateTime` structure below; `None`-able fields are `Option`s.
-/

set_option linter.unusedVariables false
set_option maxRecDepth 100000

deriving instance DecidableEq for Except

/-- Python exception kinds that the modelled code can raise.  `alreadyOpen`
abstracts the `ValueError` raised by `Sessions.start` (wbso.py line 49);
`typeError` the `TypeError` from comparing or subtracting `None` and a
`datetime`; `indexError` a list indexing error; `attributeError` the error
from calling `strftime` on `None`; `malformedTime` the `time.strptime`
failure for a token that is neither `now`, `last` nor `HH:MM`. -/
inductive PyError where
  | alreadyOpen
  | typeError
  | indexError
  | attributeError
  | malformedTime
  deriving DecidableEq, Repr

/-- Model of a Python `datetime.datetime` value: calendar fields plus a
time of day.  Values stored by the program are validated by Python's
`datetime` constructor, so chronological order coincides with the order of
`toSeconds` below. -/
structure DateTime where
  year : Nat
  month : Nat
  day : Nat
  hour : Nat
  minute : Nat
  second : Nat
  deriving DecidableEq, Repr

/-- Days since 1970-01-01 in the proleptic Gregorian calendar (the calendar
Python's `datetime` uses).  Standard civil-from-days arithmetic; all
intermediate divisions act on nonnegative operands for valid dates. -/
def daysFromCivil (y m d : Nat) : Int :=
  let yi : Int := if m ≤ 2 then (y : Int) - 1 else (y : Int)
  let era : Int := (if 0 ≤ yi then yi else yi - 399) / 400
  let yoe : Int := yi - era * 400
  let mp : Int := ((m : Int) + 9) % 12
  let doy : Int := (153 * mp + 2) / 5 + (d : Int) - 1
  let doe : Int := yoe * 365 + yoe / 4 - yoe / 100 + doy
  era * 146097 + doe - 719468

/-- Absolute timeline position in seconds.  `end - start` on two Python
`datetime`s yields a `timedelta` whose `total_seconds()` equals the
difference of `toSeconds`. -/
def DateTime.toSeconds (t : DateTime) : Int :=
  daysFromCivil t.year t.month t.day * 86400
    + (t.hour : Int) * 3600 + (t.minute : Int) * 60 + (t.second : Int)

/-- Decimal rendering of `n` left-padded with zeros to width `w`, as
produced by `strftime` field formats such as `%d`, `%H`, `%Y`. -/
def padN (w n : Nat) : String :=
  let s := toString n
  String.mk (List.replicate (w - s.length) '0') ++ s

/-- Abbreviated month names used by `strftime`'s `%b` in the C locale. -/
def monthAbbrev (m : Nat) : String :=
  ["Jan", "Feb", "Mar", "Apr", "May", "Jun",
   "Jul", "Aug", "Sep", "Oct", "Nov", "Dec"].getD (m - 1) ""

/-- Abbreviated weekday name (`strftime` `%a`, C locale); day 0 of the
epoch, 1970-01-01, was a Thursday. -/
def weekdayAbbrev (y m d : Nat) : String :=
  ["Thu", "Fri", "Sat", "Sun", "Mon", "Tue", "Wed"].getD
    ((daysFromCivil y m d).emod 7).toNat ""

/-- `strftime "%H:%M:%S"`. -/
def fmtHMS (t : DateTime) : String :=
  padN 2 t.hour ++ ":" ++ padN 2 t.minute ++ ":" ++ padN 2 t.second

/-- `strftime "%a, %d %b %H:%M:%S"` — the start format of
`Session.__str__` (wbso.py line 135). -/
def fmtStart (t : DateTime) : String :=
  weekdayAbbrev t.year t.month t.day ++ ", " ++ padN 2 t.day ++ " "
    ++ monthAbbrev t.month ++ " " ++ fmtHMS t

/-- `strftime "%d %b %H:%M:%S"` — the `next_day_end_time_format` of
`Session.__str__` (wbso.py line 137). -/
def fmtLongEnd (t : DateTime) : String :=
  padN 2 t.day ++ " " ++ monthAbbrev t.month ++ " " ++ fmtHMS t

/-- `strftime "%Y-%m-%d"` — the date key used by the export aggregation
(wbso.py line 266). -/
def formatDate (t : DateTime) : String :=
  padN 4 t.year ++ "-" ++ padN 2 t.month ++ "-" ++ padN 2 t.day

/-- The class `Session` (wbso.py lines 127-157): a start time, an optional
end time (`None` while the session is open) and a description.  `start` is
also an `Option` because `time_to_datetime` can return `None` (the `last`
token on a ledger with no recorded end). -/
structure Session where
  start : Option DateTime
  «end» : Option DateTime
  description : String
  deriving DecidableEq, Repr

/-- `Session.__str__` (wbso.py lines 134-146).  Renders
`"<start> - <end-or-...>: <description>"`; the end uses the bare
`%H:%M:%S` format unless `start.day != end.day` (the code compares only
the day-of-month fields), in which case `%d %b %H:%M:%S` is used.
`strftime` on an absent start raises `AttributeError`. -/
def Session.str (s : Session) : Except PyError String :=
  match s.start with
  | none => .error .attributeError
  | some st =>
    let endStr : String :=
      match s.«end» with
      | none => "..."
      | some en => if st.day ≠ en.day then fmtLongEnd en else fmtHMS en
    .ok (fmtStart st ++ " - " ++ endStr ++ ": " ++ s.description)

/-- `_duration_as_hours` (wbso.py lines 38-40): `(end - start)` in
fractional hours, i.e. elapsed seconds divided by 3600. -/
def durationAsHours (st en : DateTime) : ℚ :=
  ((en.toSeconds - st.toSeconds : Int) : ℚ) / 3600

/-- The class `Sessions` (wbso.py lines 42-125): the ledger.  `sessions`
is the ordered list; `open_session` is the index of the single open
session or `None`.  It is modelled as an `Option Int` because the buggy
index arithmetic in `remove` can drive the stored index negative. -/
structure Sessions where
  sessions : List Session
  open_session : Option Int
  deriving DecidableEq, Repr

/-- Python list indexing: a negative index counts from the end; an index
out of range after that canonicalisation is an `IndexError`. -/
def pyIndex (n : Nat) (i : Int) : Option Nat :=
  let c : Int := if i < 0 then i + (n : Int) else i
  if 0 ≤ c ∧ c < (n : Int) then some c.toNat else none

/-- Python `xs[i]` on a session list. -/
def pyGet (ss : List Session) (i : Int) : Except PyError Session :=
  match pyIndex ss.length i with
  | some c =>
    match ss.get? c with
    | some s => .ok s
    | none => .error .indexError
  | none => .error .indexError

/-- Python `xs[i] = s` (models in-place mutation of the object at `i`). -/
def pySet (ss : List Session) (i : Int) (s : Session) :
    Except PyError (List Session) :=
  match pyIndex ss.length i with
  | some c => .ok (ss.set c s)
  | none => .error .indexError

/-- Python `del xs[i]` (wbso.py line 81). -/
def pyDel (ss : List Session) (i : Int) : Except PyError (List Session) :=
  match pyIndex ss.length i with
  | some c => .ok (ss.eraseIdx c)
  | none => .error .indexError

/-- Python's `a > b` on two optional datetimes: comparing `None` with a
`datetime` (or `None`) raises `TypeError`. -/
def optGt (a b : Option DateTime) : Except PyError Bool :=
  match a, b with
  | some x, some y => .ok (decide (y.toSeconds < x.toSeconds))
  | _, _ => .error .typeError

/-- The scan loop of `get_last_end_time` (wbso.py lines 101-105): keep the
latest end seen so far, comparing with `session.end > latest_end`. -/
def foldLastEnd : Option DateTime → List Session →
    Except PyError (Option DateTime)
  | latest, [] => .ok latest
  | latest, s :: rest =>
    match optGt s.«end» latest with
    | .error e => .error e
    | .ok b => foldLastEnd (if b then s.«end» else latest) rest

/-- `Sessions.get_last_end_time` (wbso.py lines 98-105): `None` for an
empty ledger, otherwise the scan starting from the first session's end. -/
def Sessions.get_last_end_time (l : Sessions) :
    Except PyError (Option DateTime) :=
  match l.sessions with
  | [] => .ok none
  | s :: rest => foldLastEnd s.«end» rest

/-- Longest digit prefix of a character list, with the remainder. -/
def takeDigits : List Char → (List Char × List Char)
  | [] => ([], [])
  | c :: cs =>
    if c.isDigit then
      let p := takeDigits cs
      (c :: p.1, p.2)
    else ([], c :: cs)

/-- Value of a digit string. -/
def digitsToNat (ds : List Char) : Nat :=
  ds.foldl (fun a c => a * 10 + (c.toNat - 48)) 0

/-- Model of `time.strptime(time_str, "%H:%M")`: one or two digits for the
hour (0-23), a colon, one or two digits for the minute (0-59), nothing
after. -/
def parseHHMM (s : String) : Option (Nat × Nat) :=
  let p := takeDigits s.data
  match p.2 with
  | ':' :: rest2 =>
    let q := takeDigits rest2
    if 1 ≤ p.1.length ∧ p.1.length ≤ 2 ∧ 1 ≤ q.1.length ∧ q.1.length ≤ 2
        ∧ q.2 = [] then
      let h := digitsToNat p.1
      let m := digitsToNat q.1
      if h ≤ 23 ∧ m ≤ 59 then some (h, m) else none
    else none
  | _ => none

/-- `Sessions.time_to_datetime` (wbso.py lines 107-119).  `now` stands for
the current moment (`datetime.today()` / `datetime.now()`); an `HH:MM`
token yields today's date at that time with seconds zeroed. -/
def Sessions.time_to_datetime (l : Sessions) (timeStr : String)
    (now : DateTime) : Except PyError (Option DateTime) :=
  if timeStr = "last" then l.get_last_end_time
  else if timeStr = "now" then .ok (some now)
  else
    match parseHHMM timeStr with
    | some hm =>
      .ok (some ⟨now.year, now.month, now.day, hm.1, hm.2, 0⟩)
    | none => .error .malformedTime

/-- The `if x: x = self.time_to_datetime(x) else: x = datetime.now()`
pattern used for the optional time arguments of `start` (wbso.py lines
51-54) and `end` (lines 65-68).  An absent or empty (falsy) argument
resolves to the current moment. -/
def Sessions.resolveOptTime (l : Sessions) (arg : Option String)
    (now : DateTime) : Except PyError (Option DateTime) :=
  match arg with
  | some s => if s ≠ "" then l.time_to_datetime s now else .ok (some now)
  | none => .ok (some now)

/-- `Sessions.__str__` line builder (wbso.py lines 121-125):
`"<index>. <session rendering>"` for each session in order. -/
def sessionLines : Nat → List Session → Except PyError (List String)
  | _, [] => .ok []
  | i, s :: rest =>
    match s.str with
    | .error e => .error e
    | .ok r =>
      match sessionLines (i + 1) rest with
      | .error e => .error e
      | .ok tail => .ok ((toString i ++ ". " ++ r) :: tail)

/-- `Sessions.__str__` (wbso.py lines 121-125): the numbered session lines
joined with newlines. -/
def Sessions.render (l : Sessions) : Except PyError String :=
  match sessionLines 0 l.sessions with
  | .error e => .error e
  | .ok lines => .ok (String.intercalate "\n" lines)

/-- `Sessions.start` (wbso.py lines 47-58).  Raises if a session is
already open (formatting the open session's rendering, which can itself
raise on a degenerate ledger); otherwise resolves the optional start time
and appends a new open session, pointing `open_session` at it. -/
def Sessions.start (l : Sessions) (description : String)
    (startArg : Option String) (now : DateTime) : Except PyError Sessions :=
  match l.open_session with
  | some z =>
    match pyGet l.sessions z with
    | .error e => .error e
    | .ok s =>
      match s.str with
      | .error e => .error e
      | .ok _ => .error .alreadyOpen
  | none =>
    match l.resolveOptTime startArg now with
    | .error e => .error e
    | .ok st =>
      .ok ⟨l.sessions ++ [⟨st, none, description⟩],
           some (l.sessions.length : Int)⟩

/-- `Sessions.end` (wbso.py lines 60-71), the close operation.  Returns
`False` (no-op) when no session is open; otherwise fetches the open
session, resolves the optional end time, sets it as the session's end,
clears `open_session` and returns `True`. -/
def Sessions.close (l : Sessions) (endArg : Option String)
    (now : DateTime) : Except PyError (Sessions × Bool) :=
  match l.open_session with
  | none => .ok (l, false)
  | some z =>
    match pyGet l.sessions z with
    | .error e => .error e
    | .ok s =>
      match l.resolveOptTime endArg now with
      | .error e => .error e
      | .ok e =>
        match pySet l.sessions z ⟨s.start, e, s.description⟩ with
        | .error er => .error er
        | .ok ss => .ok (⟨ss, none⟩, true)

/-- `Sessions.log` (wbso.py lines 73-78): resolve both time tokens and
append an already-closed session; `open_session` is untouched. -/
def Sessions.log (l : Sessions) (startStr endStr description : String)
    (now : DateTime) : Except PyError Sessions :=
  match l.time_to_datetime startStr now with
  | .error e => .error e
  | .ok st =>
    match l.time_to_datetime endStr now with
    | .error e => .error e
    | .ok en => .ok ⟨l.sessions ++ [⟨st, en, description⟩], l.open_session⟩

/-- `Sessions.remove` (wbso.py lines 80-86): `del sessions[index]`, then
adjust `open_session` by comparing it with the raw (possibly negative)
index: equal → cleared, greater → decremented, less → unchanged. -/
def Sessions.remove (l : Sessions) (index : Int) : Except PyError Sessions :=
  match pyDel l.sessions index with
  | .error e => .error e
  | .ok ss =>
    .ok ⟨ss,
      match l.open_session with
      | none => none
      | some z =>
        if z = index then none
        else if index < z then some (z - 1)
        else some z⟩

/-- `Sessions.clear` (wbso.py lines 88-90). -/
def Sessions.clear (l : Sessions) : Sessions := ⟨[], none⟩

/-- The `--amend` dispatch branch (wbso.py lines 216-224): default index
`-1`, fetch the session, replace its description in place. -/
def amendBranch (l : Sessions) (idxArg : Option Int) (description : String) :
    Except PyError Sessions :=
  let i := idxArg.getD (-1)
  match pyGet l.sessions i with
  | .error e => .error e
  | .ok s =>
    match pySet l.sessions i ⟨s.start, s.«end», description⟩ with
    | .error e => .error e
    | .ok ss => .ok ⟨ss, l.open_session⟩

/-- The `--cancel` dispatch branch (wbso.py lines 202-208): remove the
open session if there is one, otherwise report and leave the ledger
unchanged. -/
def cancelBranch (l : Sessions) : Except PyError Sessions :=
  match l.open_session with
  | some z => l.remove z
  | none => .ok l

/-- Nested accumulator of the export loop: dates in first-seen order, each
with its descriptions in first-seen order and their summed hours.  Models
the nested insertion-ordered Python dicts `sess_durations`. -/
abbrev Buckets := List (String × List (String × ℚ))

/-- `sess_durations[date][description] += duration` on the inner dict:
first occurrence initialises to the duration, later ones add to it. -/
def addInner : List (String × ℚ) → String → ℚ → List (String × ℚ)
  | [], de, q => [(de, q)]
  | (k, v) :: t, de, q =>
    if k = de then (k, v + q) :: t else (k, v) :: addInner t de q

/-- One iteration of the export accumulation (wbso.py lines 271-275):
ensure the date key, ensure the description key, add the duration. -/
def aggStep : Buckets → String → String → ℚ → Buckets
  | [], d, de, q => [(d, [(de, q)])]
  | (k, inner) :: t, d, de, q =>
    if k = d then (k, addInner inner de q) :: t
    else (k, inner) :: aggStep t d de q

/-- The export accumulation loop (wbso.py lines 264-275).  For each
session, `session.start.strftime` raises `AttributeError` if the start is
absent, and `end - start` raises `TypeError` if the end is absent (the
open session's case). -/
def aggLoop : Buckets → List Session → Except PyError Buckets
  | acc, [] => .ok acc
  | acc, s :: rest =>
    match s.start with
    | none => .error .attributeError
    | some st =>
      match s.«end» with
      | none => .error .typeError
      | some en =>
        aggLoop (aggStep acc (formatDate st) s.description
          (durationAsHours st en)) rest

/-- The whole export accumulation starting from the empty dict. -/
def aggregate (ss : List Session) : Except PyError Buckets :=
  aggLoop [] ss

/-- The emission loop (wbso.py lines 278-280): one line
`"<date>,,<description>,<hours:.2f>"` per (date, description) entry, in
stored (first-seen) order. -/
def formatFix2 (q : ℚ) : String :=
  let r : ℚ := q * 100 - (q * 100).floor
  let c : Int :=
    if r < 1 / 2 then (q * 100).floor
    else if 1 / 2 < r then (q * 100).floor + 1
    else if (q * 100).floor % 2 = 0 then (q * 100).floor
    else (q * 100).floor + 1
  let sign := if c < 0 then "-" else ""
  let a := c.natAbs
  sign ++ toString (a / 100) ++ "." ++ padN 2 (a % 100)

/-- The printed data lines of the export loop, in bucket order. -/
def emitLines : Buckets → List String
  | [] => []
  | (d, inner) :: t =>
    inner.map (fun q => d ++ ",," ++ q.1 ++ "," ++ formatFix2 q.2)
      ++ emitLines t

/-- The `--export` dispatch branch (wbso.py lines 253-280), returning the
ledger (never rebound by the branch) together with every line printed.
When a session is open, the branch prints an error message and the current
rendering but — lacking a `return` — still falls through into the
aggregation, which raises `TypeError` on the open session's absent end. -/
def exportBranch (l : Sessions) : Except PyError (Sessions × List String) :=
  match
    (if l.open_session.isSome then
      match l.render with
      | .error e => Except.error e
      | .ok r => .ok ["Cannot export while a session is open.", r]
    else .ok ([] : List String)) with
  | .error e => .error e
  | .ok pre =>
    let pre2 := pre ++ (if l.sessions.isEmpty then ["No sessions."] else [])
    match aggregate l.sessions with
    | .error e => .error e
    | .ok buckets => .ok (l, pre2 ++ emitLines buckets)

/-- The ledger operations reachable from the command dispatcher
(wbso.py lines 185-292), with their arguments. -/
inductive Op where
  | startO (description : String) (startArg : Option String) (now : DateTime)
  | closeO (endArg : Option String) (now : DateTime)
  | logO (startStr endStr description : String) (now : DateTime)
  | deleteO (index : Int)
  | cancelO
  | amendO (idxArg : Option Int) (description : String)
  | clearO
  deriving Repr

/-- Run one dispatched ledger operation, yielding the ledger that the
invocation saves (an `.error` models an uncaught exception: nothing is
saved). -/
def applyOp : Op → Sessions → Except PyError Sessions
  | .startO d arg now, l => l.start d arg now
  | .closeO arg now, l =>
    match l.close arg now with
    | .error e => .error e
    | .ok p => .ok p.1
  | .logO s e d now, l => l.log s e d now
  | .deleteO i, l => l.remove i
  | .cancelO, l => cancelBranch l
  | .amendO idx d, l => amendBranch l idx d
  | .clearO, l => .ok l.clear

/-- `true` when the session is closed (its end is present). -/
def sessionClosed (s : Session) : Bool := s.«end».isSome

/-- Exactly the session at position `k` is open: it exists, lacks an end,
and every other session has an end. -/
def onlyOpenAt : List Session → Nat → Bool
  | [], _ => false
  | s :: rest, 0 => s.«end».isNone && rest.all sessionClosed
  | s :: rest, k + 1 => s.«end».isSome && onlyOpenAt rest k

/-- The ledger invariant of spec §3: at most one session is open at a
time; if `open_session` is set it is a valid (nonnegative, in-range)
position whose session lacks an end, and every other session has an end;
if it is unset, every session has an end. -/
def Sessions.inv (l : Sessions) : Bool :=
  match l.open_session with
  | none => l.sessions.all sessionClosed
  | some z => decide (0 ≤ z) && onlyOpenAt l.sessions z.toNat

/-- Side conditions under which the amended invariant-preservation claim
is stated: `delete` must receive a nonnegative index (Python accepts
negative ones and then mis-adjusts `open_session`), and the resolved end
time of `close`/`log` must be a concrete timestamp (the `last` token can
resolve to `None` and produce an end-less session). -/
def opProviso : Op → Sessions → Bool
  | .deleteO i, _ => decide (0 ≤ i)
  | .closeO arg now, l =>
    match l.resolveOptTime arg now with
    | .ok none => false
    | _ => true
  | .logO s e d now, l =>
    match l.time_to_datetime e now with
    | .ok none => false
    | _ => true
  | _, _ => true

/-! ### Concrete fixtures used by counterexamples and witnesses -/

/-- A closed one-hour session on 2024-01-15. -/
def sessA : Session :=
  ⟨some ⟨2024, 1, 15, 9, 0, 0⟩, some ⟨2024, 1, 15, 10, 0, 0⟩, "a"⟩

/-- An open (end-less) session. -/
def sessOpen : Session := ⟨some ⟨2024, 1, 15, 10, 30, 0⟩, none, "b"⟩

/-- Another closed session on 2024-01-15. -/
def sessC : Session :=
  ⟨some ⟨2024, 1, 15, 11, 0, 0⟩, some ⟨2024, 1, 15, 12, 0, 0⟩, "c"⟩

/-- A valid ledger whose middle session is the open one. -/
def cexLedger : Sessions := ⟨[sessA, sessOpen, sessC], some 1⟩

/-- A ledger holding a single open session. -/
def openLedger : Sessions :=
  ⟨[⟨some ⟨2024, 1, 15, 9, 0, 0⟩, none, "work"⟩], some 0⟩

/-- An idle ledger with two closed same-date "coding" sessions,
09:00-10:00 and 10:30-11:00 (the export example of spec §8). -/
def closedLedger : Sessions :=
  ⟨[⟨some ⟨2024, 1, 15, 9, 0, 0⟩, some ⟨2024, 1, 15, 10, 0, 0⟩, "coding"⟩,
    ⟨some ⟨2024, 1, 15, 10, 30, 0⟩, some ⟨2024, 1, 15, 11, 0, 0⟩, "coding"⟩],
   none⟩

/-- A session whose end falls one calendar month after its start, on the
same day-of-month (15th). -/
def monthSpanSession : Session :=
  ⟨some ⟨2024, 1, 15, 10, 0, 0⟩, some ⟨2024, 2, 15, 11, 0, 0⟩, "x"⟩

/-! ### C1 -/

/-- C1 (code bug): with an open session present, the `--export` branch
prints its error message but, lacking a `return`, falls through into the
aggregation, which raises `TypeError` on the open session's absent end —
the export is not skipped cleanly as the spec requires, although no data
line is ever emitted (the crash happens before the print loop). -/
theorem export_open_session_raises :
    openLedger.open_session.isSome = true ∧
    exportBranch openLedger = .error .typeError := by decide

/-! ### C2 -/

/-- C2 (counterexample): `delete` with the accepted negative index `-1`
removes the last session but wrongly decrements `open_session` (the raw
comparison `open_session > index` holds for every negative index), so the
invariant-satisfying ledger `cexLedger` is driven to a state whose
`open_session` points at a closed session. -/
theorem delete_negative_breaks_invariant :
    cexLedger.inv = true ∧
    applyOp (.deleteO (-1)) cexLedger = .ok ⟨[sessA, sessOpen], some 0⟩ ∧
    Sessions.inv ⟨[sessA, sessOpen], some 0⟩ = false := by decide

/-! ### C4 -/

/-- C4 (code bug): `Session.__str__` decides the end format by comparing
only the day-of-month fields (`self.start.day != self.end.day`), so a
session from 15 Jan to 15 Feb — a different calendar day — is rendered
with the bare `HH:MM:SS` end format instead of the dated
`%d %b %H:%M:%S` one. -/
theorem render_day_of_month_slip :
    monthSpanSession.str = .ok "Mon, 15 Jan 10:00:00 - 11:00:00: x" ∧
    fmtLongEnd ⟨2024, 2, 15, 11, 0, 0⟩ = "15 Feb 11:00:00" ∧
    ((2024, 1, 15) : Nat × Nat × Nat) ≠ (2024, 2, 15) := by decide

/-! ### C3 -/

/-- `pyIndex` on a nonnegative in-range index is the identity. -/
theorem pyIndex_ofNat {n i : Nat} (h : i < n) : pyIndex n (i : Int) = some i := by
  unfold pyIndex
  have h1 : ¬ ((i : Int) < 0) := by omega
  have h2 : 0 ≤ (i : Int) ∧ (i : Int) < (n : Int) := by omega
  simp [h1, h2]

/-- C3 (confirmed): deleting a valid index `i` erases `sessions[i]` and
adjusts `open_session` exactly as the spec describes: cleared when it
equalled `i`, decremented when it was greater, unchanged when smaller. -/
theorem delete_shifts_open_index (l : Sessions) (i : Nat)
    (h : i < l.sessions.length) :
    l.remove (i : Int) = .ok ⟨l.sessions.eraseIdx i,
      match l.open_session with
      | none => none
      | some z =>
        if z = (i : Int) then none
        else if (i : Int) < z then some (z - 1)
        else some z⟩ := by
  unfold Sessions.remove pyDel
  rw [pyIndex_ofNat h]

/-- Witness for C3 at the concrete ledger `cexLedger` with `i = 2`. -/
theorem delete_shifts_open_index_witness :
    2 < cexLedger.sessions.length ∧
    cexLedger.remove ((2 : Nat) : Int) = .ok ⟨cexLedger.sessions.eraseIdx 2,
      match cexLedger.open_session with
      | none => none
      | some z =>
        if z = ((2 : Nat) : Int) then none
        else if ((2 : Nat) : Int) < z then some (z - 1)
        else some z⟩ :=
  ⟨by decide, delete_shifts_open_index cexLedger 2 (by decide)⟩

/-! ### C10 -/

/-- C10 (confirmed): whenever the `--export` branch completes without an
exception, the ledger it hands back to be saved is exactly the input
ledger — export never modifies `sessions` or `open_session`.  (When the
branch raises, nothing is saved at all.) -/
theorem export_preserves_ledger (l : Sessions) (out : Sessions × List String)
    (h : exportBranch l = .ok out) : out.1 = l := by
  unfold exportBranch at h
  repeat' split at h
  all_goals (cases h <;> rfl)

/-- Witness for C10 at the two-session idle ledger. -/
theorem export_preserves_ledger_witness :
    exportBranch closedLedger
      = .ok (closedLedger, ["2024-01-15,,coding,1.50"]) ∧
    (closedLedger, ["2024-01-15,,coding,1.50"]).1 = closedLedger :=
  ⟨by with_unfolding_all decide,
   export_preserves_ledger closedLedger _ (by with_unfolding_all decide)⟩

/-! ### The `last` token: lemmas about the end-time scan -/

/-- Comparing anything against an absent right operand raises. -/
theorem optGt_none_right (a : Option DateTime) :
    optGt a none = .error .typeError := by cases a <;> rfl

/-- Comparing an absent left operand against anything raises. -/
theorem optGt_none_left (b : Option DateTime) :
    optGt none b = .error .typeError := by cases b <;> rfl

/-- When every remaining session has an end, the scan from a concrete
accumulator returns a value that bounds the accumulator and every end it
passed, and that is the accumulator or one of those ends. -/
theorem foldLastEnd_allSome (rest : List Session)
    (h : ∀ s ∈ rest, s.«end».isSome = true) (x : DateTime) :
    ∃ m, foldLastEnd (some x) rest = .ok (some m) ∧
      (m = x ∨ some m ∈ rest.map (fun s => s.«end»)) ∧
      x.toSeconds ≤ m.toSeconds ∧
      ∀ s ∈ rest, ∀ e, s.«end» = some e → e.toSeconds ≤ m.toSeconds := by
  induction rest generalizing x with
  | nil => exact ⟨x, rfl, .inl rfl, le_refl _, by simp⟩
  | cons s t ih =>
    obtain ⟨e, he⟩ := Option.isSome_iff_exists.mp (h s (by simp))
    by_cases hc : x.toSeconds < e.toSeconds
    · obtain ⟨m, hm1, hm2, hm3, hm4⟩ := ih (fun u hu => h u (by simp [hu])) e
      refine ⟨m, ?_, ?_, by omega, ?_⟩
      · simpa [foldLastEnd, optGt, he, hc] using hm1
      · rcases hm2 with rfl | hmem
        · exact .inr (by simp [he])
        · refine .inr ?_
          simp only [List.map_cons, List.mem_cons]
          right; exact hmem
      · intro u hu e' he'
        rcases List.mem_cons.mp hu with rfl | hut
        · rw [he] at he'
          injection he' with hh
          subst hh
          exact hm3
        · exact hm4 u hut e' he'
    · obtain ⟨m, hm1, hm2, hm3, hm4⟩ := ih (fun u hu => h u (by simp [hu])) x
      refine ⟨m, ?_, ?_, hm3, ?_⟩
      · simpa [foldLastEnd, optGt, he, hc] using hm1
      · rcases hm2 with rfl | hmem
        · exact .inl rfl
        · refine .inr ?_
          simp only [List.map_cons, List.mem_cons]
          right; exact hmem
      · intro u hu e' he'
        rcases List.mem_cons.mp hu with rfl | hut
        · rw [he] at he'
          injection he' with hh
          subst hh
          omega
        · exact hm4 u hut e' he'

/-- If some remaining session lacks an end, the scan from a concrete
accumulator raises `TypeError` at that session's comparison. -/
theorem foldLastEnd_hasNone (t : List Session)
    (h : ∃ s ∈ t, s.«end» = none) (x : DateTime) :
    foldLastEnd (some x) t = .error .typeError := by
  induction t generalizing x with
  | nil => simp at h
  | cons s t ih =>
    obtain ⟨s', hs', hnone⟩ := h
    cases hs : s.«end» with
    | none => simp [foldLastEnd, optGt, hs]
    | some e =>
      have h' : ∃ u ∈ t, u.«end» = none := by
        rcases List.mem_cons.mp hs' with rfl | hut
        · rw [hs] at hnone; cases hnone
        · exact ⟨s', hut, hnone⟩
      by_cases hc : x.toSeconds < e.toSeconds <;>
        simp [foldLastEnd, optGt, hs, hc, ih h']

/-- A scan that starts from an absent accumulator raises at the very first
comparison (there is one, the remaining list being nonempty). -/
theorem foldLastEnd_none_start (t : List Session) (h : t ≠ []) :
    foldLastEnd none t = .error .typeError := by
  cases t with
  | nil => exact absurd rfl h
  | cons s t => simp [foldLastEnd, optGt_none_right]

/-- Characterisation of `get_last_end_time` on a nonempty all-closed
ledger: it returns one of the recorded ends, and that end bounds all of
them. -/
theorem get_last_end_time_spec (l : Sessions) (hne : l.sessions ≠ [])
    (h : ∀ s ∈ l.sessions, s.«end».isSome = true) :
    ∃ m, l.get_last_end_time = .ok (some m) ∧
      some m ∈ l.sessions.map (fun s => s.«end») ∧
      ∀ s ∈ l.sessions, ∀ e, s.«end» = some e → e.toSeconds ≤ m.toSeconds := by
  rcases hl : l.sessions with _ | ⟨s0, rest⟩
  · exact absurd hl hne
  · obtain ⟨e0, he0⟩ := Option.isSome_iff_exists.mp (h s0 (by rw [hl]; simp))
    obtain ⟨m, hm1, hm2, hm3, hm4⟩ :=
      foldLastEnd_allSome rest (fun u hu => h u (by rw [hl]; simp [hu])) e0
    refine ⟨m, ?_, ?_, ?_⟩
    · rw [Sessions.get_last_end_time, hl]
      show foldLastEnd s0.«end» rest = Except.ok (some m)
      rw [he0]; exact hm1
    · rcases hm2 with rfl | hmem
      · simp [he0]
      · simp only [List.map_cons, List.mem_cons]
        right; exact hmem
    · intro u hu e' he'
      rcases List.mem_cons.mp hu with rfl | hut
      · rw [he0] at he'
        injection he' with hh
        subst hh
        exact hm3
      · exact hm4 u hut e' he'

/-! ### C6 -/

/-- C6 (confirmed): on a ledger in which every session has an end, the
`last` token resolves through `get_last_end_time` to a recorded end that
bounds every other end — the maximum end timestamp — and any permutation
of the session list yields the same instant; on an empty ledger it
resolves to the undefined value `None`. -/
theorem last_token_is_max_end (l : Sessions)
    (h : ∀ s ∈ l.sessions, s.«end».isSome = true) :
    (∀ now, l.time_to_datetime "last" now = l.get_last_end_time) ∧
    (l.sessions = [] → l.get_last_end_time = .ok none) ∧
    (l.sessions ≠ [] → ∃ m, l.get_last_end_time = .ok (some m) ∧
      some m ∈ l.sessions.map (fun s => s.«end») ∧
      (∀ s ∈ l.sessions, ∀ e, s.«end» = some e →
        e.toSeconds ≤ m.toSeconds) ∧
      ∀ l' : Sessions, l'.sessions.Perm l.sessions →
        ∃ m', l'.get_last_end_time = .ok (some m') ∧
          m'.toSeconds = m.toSeconds) := by
  refine ⟨fun now => rfl, ?_, ?_⟩
  · intro he
    rw [Sessions.get_last_end_time, he]
  · intro hne
    obtain ⟨m, hm1, hm2, hm3⟩ := get_last_end_time_spec l hne h
    refine ⟨m, hm1, hm2, hm3, ?_⟩
    intro l' hperm
    have hne' : l'.sessions ≠ [] := by
      intro hnil
      apply hne
      have hp := hperm.symm
      rw [hnil] at hp
      exact hp.eq_nil
    have h' : ∀ s ∈ l'.sessions, s.«end».isSome = true :=
      fun s hs => h s (hperm.mem_iff.mp hs)
    obtain ⟨m', hm'1, hm'2, hm'3⟩ := get_last_end_time_spec l' hne' h'
    refine ⟨m', hm'1, ?_⟩
    obtain ⟨u, hu, huend⟩ := List.mem_map.mp hm'2
    obtain ⟨v, hv, hvend⟩ := List.mem_map.mp hm2
    have h1 : m'.toSeconds ≤ m.toSeconds :=
      hm3 u (hperm.mem_iff.mp hu) m' huend
    have h2 : m.toSeconds ≤ m'.toSeconds :=
      hm'3 v (hperm.mem_iff.mpr hv) m hvend
    omega

/-- Witness for C6 at the two-session all-closed ledger `closedLedger`. -/
theorem last_token_is_max_end_witness :
    (∀ s ∈ closedLedger.sessions, s.«end».isSome = true) ∧
    ((∀ now, closedLedger.time_to_datetime "last" now
        = closedLedger.get_last_end_time) ∧
    (closedLedger.sessions = [] → closedLedger.get_last_end_time = .ok none) ∧
    (closedLedger.sessions ≠ [] → ∃ m,
      closedLedger.get_last_end_time = .ok (some m) ∧
      some m ∈ closedLedger.sessions.map (fun s => s.«end») ∧
      (∀ s ∈ closedLedger.sessions, ∀ e, s.«end» = some e →
        e.toSeconds ≤ m.toSeconds) ∧
      ∀ l' : Sessions, l'.sessions.Perm closedLedger.sessions →
        ∃ m', l'.get_last_end_time = .ok (some m') ∧
          m'.toSeconds = m.toSeconds)) :=
  ⟨by decide, last_token_is_max_end closedLedger (by decide)⟩

/-! ### C9 -/

/-- C9 (confirmed): on any ledger holding an open (end-less) session
together with at least one other session, resolving the `last` token
raises `TypeError`: the scan of `get_last_end_time` compares the absent
end with `>` instead of skipping it. -/
theorem last_token_with_open_session_errors (l : Sessions) (now : DateTime)
    (h1 : ∃ s ∈ l.sessions, s.«end» = none)
    (h2 : 2 ≤ l.sessions.length) :
    l.get_last_end_time = .error .typeError ∧
    l.time_to_datetime "last" now = .error .typeError := by
  have hmain : l.get_last_end_time = .error .typeError := by
    rcases hl : l.sessions with _ | ⟨s0, rest⟩
    · rw [hl] at h2; simp at h2
    · have hrest : rest ≠ [] := by
        intro hnil
        rw [hl, hnil] at h2; simp at h2
      rw [Sessions.get_last_end_time, hl]
      show foldLastEnd s0.«end» rest = Except.error .typeError
      cases hs0 : s0.«end» with
      | none => exact foldLastEnd_none_start rest hrest
      | some e0 =>
        refine foldLastEnd_hasNone rest ?_ e0
        obtain ⟨s', hs', hnone⟩ := h1
        rw [hl] at hs'
        rcases List.mem_cons.mp hs' with rfl | hut
        · rw [hs0] at hnone; cases hnone
        · exact ⟨s', hut, hnone⟩
  exact ⟨hmain, hmain⟩

/-- Witness for C9: a ledger with one closed and one open session. -/
theorem last_token_with_open_session_errors_witness :
    (∃ s ∈ (Sessions.mk [sessA, sessOpen] (some 1)).sessions,
      s.«end» = none) ∧
    2 ≤ (Sessions.mk [sessA, sessOpen] (some 1)).sessions.length ∧
    (Sessions.mk [sessA, sessOpen] (some 1)).get_last_end_time
      = .error .typeError ∧
    (Sessions.mk [sessA, sessOpen] (some 1)).time_to_datetime "last"
      ⟨2024, 1, 15, 12, 0, 0⟩ = .error .typeError := by
  refine ⟨by decide, by decide, ?_⟩
  exact last_token_with_open_session_errors _ ⟨2024, 1, 15, 12, 0, 0⟩
    (by decide) (by decide)

/-! ### Invariant helper lemmas -/

/-- The tracked open position is in range. -/
theorem onlyOpenAt_lt : ∀ {ss : List Session} {k : Nat},
    onlyOpenAt ss k = true → k < ss.length := by
  intro ss
  induction ss with
  | nil => intro k h; simp [onlyOpenAt] at h
  | cons s t ih =>
    intro k h
    cases k with
    | zero => simp
    | succ k =>
      simp only [onlyOpenAt, Bool.and_eq_true] at h
      have := ih h.2
      simp only [List.length_cons]
      omega

/-- The session at the tracked open position lacks an end. -/
theorem onlyOpenAt_get_none : ∀ {ss : List Session} {k : Nat},
    onlyOpenAt ss k = true → ∃ s, ss.get? k = some s ∧ s.«end» = none := by
  intro ss
  induction ss with
  | nil => intro k h; simp [onlyOpenAt] at h
  | cons s t ih =>
    intro k h
    cases k with
    | zero =>
      simp only [onlyOpenAt, Bool.and_eq_true] at h
      exact ⟨s, rfl, Option.isNone_iff_eq_none.mp h.1⟩
    | succ k =>
      simp only [onlyOpenAt, Bool.and_eq_true] at h
      simpa using ih h.2

/-- Every session away from the tracked open position has an end. -/
theorem onlyOpenAt_other : ∀ {ss : List Session} {k : Nat},
    onlyOpenAt ss k = true → ∀ j s, j ≠ k → ss.get? j = some s →
      s.«end».isSome = true := by
  intro ss
  induction ss with
  | nil => intro k h; simp [onlyOpenAt] at h
  | cons s t ih =>
    intro k h j u hjk hget
    cases k with
    | zero =>
      simp only [onlyOpenAt, Bool.and_eq_true] at h
      cases j with
      | zero => exact absurd rfl hjk
      | succ j =>
        simp only [List.get?_cons_succ] at hget
        have hmem : u ∈ t := List.get?_mem hget
        exact (List.all_eq_true.mp h.2) u hmem
    | succ k =>
      simp only [onlyOpenAt, Bool.and_eq_true] at h
      cases j with
      | zero =>
        simp only [List.get?_cons_zero, Option.some_inj] at hget
        rw [← hget]; exact h.1
      | succ j =>
        simp only [List.get?_cons_succ] at hget
        exact ih h.2 j u (by omega) hget

/-- Python indexing with a nonnegative in-range `Int` index. -/
theorem pyIndex_toNat {n : Nat} {z : Int} (hz0 : 0 ≤ z)
    (hlt : z.toNat < n) : pyIndex n z = some z.toNat := by
  have h1 : ¬ z < 0 := by omega
  have h2 : 0 ≤ z ∧ z < (n : Int) := ⟨hz0, by omega⟩
  simp [pyIndex, h1, h2]

/-- `pyGet` at a nonnegative index present in the list. -/
theorem pyGet_toNat {ss : List Session} {z : Int} {s : Session}
    (hz0 : 0 ≤ z) (hget : ss.get? z.toNat = some s) :
    pyGet ss z = .ok s := by
  have hlt : z.toNat < ss.length := by
    rcases List.get?_eq_some.mp hget with ⟨h, _⟩
    exact h
  have hget' : ss[z.toNat]? = some s := by
    rw [← List.get?_eq_getElem?]; exact hget
  simp [pyGet, pyIndex_toNat hz0 hlt, hget']

/-- `pySet` at a nonnegative in-range index. -/
theorem pySet_toNat {ss : List Session} {z : Int} (s : Session)
    (hz0 : 0 ≤ z) (hlt : z.toNat < ss.length) :
    pySet ss z s = .ok (ss.set z.toNat s) := by
  unfold pySet
  rw [pyIndex_toNat hz0 hlt]

/-! ### C7 -/

/-- C7 (confirmed): on an Idle ledger (no open session), `start` appends a
new session with an absent end and points `open_session` at it; on an Open
ledger (well-formed: invariant holds and starts are present, so the
exception message can be rendered) `start` raises the already-open error,
producing no new ledger — sessions and `open_session` are untouched. -/
theorem start_idle_open_behaviour (l : Sessions) (desc : String)
    (arg : Option String) (now : DateTime)
    (hwf : (l.sessions.all fun s => s.start.isSome) = true)
    (hInv : l.inv = true) :
    (l.open_session = none → ∀ st, l.resolveOptTime arg now = .ok st →
      l.start desc arg now = .ok
        ⟨l.sessions ++ [⟨st, none, desc⟩], some (l.sessions.length : Int)⟩) ∧
    (l.open_session.isSome = true →
      l.start desc arg now = .error .alreadyOpen) := by
  constructor
  · intro hnone st hres
    simp [Sessions.start, hnone, hres]
  · intro hopen
    obtain ⟨z, hz⟩ := Option.isSome_iff_exists.mp hopen
    have hInv' := hInv
    simp only [Sessions.inv, hz, Bool.and_eq_true, decide_eq_true_eq]
      at hInv'
    obtain ⟨hz0, honly⟩ := hInv'
    obtain ⟨s, hget, hsend⟩ := onlyOpenAt_get_none honly
    have hpy : pyGet l.sessions z = .ok s := pyGet_toNat hz0 hget
    obtain ⟨st0, hst0⟩ := Option.isSome_iff_exists.mp
      ((List.all_eq_true.mp hwf) s (List.get?_mem hget))
    simp [Sessions.start, hz, hpy, Session.str, hst0]

/-- Witness for C7: starting on the empty ledger and on `cexLedger`. -/
theorem start_idle_open_behaviour_witness :
    Sessions.start ⟨[], none⟩ "w" none ⟨2024, 1, 15, 9, 0, 0⟩
      = .ok ⟨[⟨some ⟨2024, 1, 15, 9, 0, 0⟩, none, "w"⟩], some 0⟩ ∧
    cexLedger.start "w" none ⟨2024, 1, 15, 9, 0, 0⟩
      = .error .alreadyOpen :=
  ⟨(start_idle_open_behaviour ⟨[], none⟩ "w" none ⟨2024, 1, 15, 9, 0, 0⟩
      (by decide) (by decide)).1 rfl (some ⟨2024, 1, 15, 9, 0, 0⟩) rfl,
   (start_idle_open_behaviour cexLedger "w" none ⟨2024, 1, 15, 9, 0, 0⟩
      (by decide) (by decide)).2 rfl⟩

/-! ### C8 -/

/-- Any successful `close` on a ledger with a tracked open session
returns the `true` flag and clears `open_session`. -/
theorem close_open_shape (l : Sessions) (arg : Option String)
    (now : DateTime) {z : Int} (hz : l.open_session = some z)
    {l' : Sessions} {b : Bool} (hok : l.close arg now = .ok (l', b)) :
    b = true ∧ l'.open_session = none := by
  cases hpg : pyGet l.sessions z with
  | error e =>
    have heq : l.close arg now = .error e := by
      simp [Sessions.close, hz, hpg]
    rw [heq] at hok
    cases hok
  | ok s =>
    cases hres : l.resolveOptTime arg now with
    | error e1 =>
      have heq : l.close arg now = .error e1 := by
        simp [Sessions.close, hz, hpg, hres]
      rw [heq] at hok
      cases hok
    | ok e =>
      cases hps : pySet l.sessions z ⟨s.start, e, s.description⟩ with
      | error er =>
        have heq : l.close arg now = .error er := by
          simp [Sessions.close, hz, hpg, hres, hps]
        rw [heq] at hok
        cases hok
      | ok ss =>
        have heq : l.close arg now = .ok ((⟨ss, none⟩ : Sessions), true) := by
          simp [Sessions.close, hz, hpg, hres, hps]
        rw [heq] at hok
        simp only [Except.ok.injEq, Prod.mk.injEq] at hok
        obtain ⟨h1, h2⟩ := hok
        exact ⟨h2.symm, by rw [← h1]⟩

/-- C8 (confirmed): `close` returns `false` and leaves the ledger as-is
when Idle; when Open (with a valid tracked index) it writes the resolved
end time into the open session, clears `open_session` and returns `true`;
any successful close returns `true` exactly when a session was open, and
a second close straight after a successful one is a no-op returning
`false`. -/
theorem close_flag_and_idempotence (l : Sessions) (arg : Option String)
    (now : DateTime) (hInv : l.inv = true) :
    (l.open_session = none → l.close arg now = .ok (l, false)) ∧
    (∀ z ov e, l.open_session = some z →
      l.sessions.get? z.toNat = some ov →
      l.resolveOptTime arg now = .ok e →
      l.close arg now = .ok
        (⟨l.sessions.set z.toNat ⟨ov.start, e, ov.description⟩, none⟩,
         true)) ∧
    (∀ l' b, l.close arg now = .ok (l', b) →
      (b = true ↔ l.open_session.isSome = true)) ∧
    (∀ l' arg2 now2, l.close arg now = .ok (l', true) →
      l'.close arg2 now2 = .ok (l', false)) := by
  refine ⟨?_, ?_, ?_, ?_⟩
  · intro h
    simp [Sessions.close, h]
  · intro z ov e hz hget hres
    have hz0 : 0 ≤ z := by
      have hInv' := hInv
      simp only [Sessions.inv, hz, Bool.and_eq_true, decide_eq_true_eq]
        at hInv'
      exact hInv'.1
    have hlt : z.toNat < l.sessions.length := by
      rcases List.get?_eq_some.mp hget with ⟨hh, _⟩
      exact hh
    have hpy : pyGet l.sessions z = .ok ov := pyGet_toNat hz0 hget
    have hpyset := @pySet_toNat l.sessions z
      ⟨ov.start, e, ov.description⟩ hz0 hlt
    simp [Sessions.close, hz, hpy, hres, hpyset]
  · intro l' b hok
    cases hcase : l.open_session with
    | none =>
      have heq : l.close arg now = .ok (l, false) := by
        simp [Sessions.close, hcase]
      rw [heq] at hok
      cases hok
      simp [hcase]
    | some z =>
      obtain ⟨hb, _⟩ := close_open_shape l arg now hcase hok
      simp [hb, hcase]
  · intro l' arg2 now2 hok
    have hopen' : l'.open_session = none := by
      cases hcase : l.open_session with
      | none =>
        have heq : l.close arg now = .ok (l, false) := by
          simp [Sessions.close, hcase]
        rw [heq] at hok
        cases hok
      | some z =>
        exact (close_open_shape l arg now hcase hok).2
    simp [Sessions.close, hopen']

/-- Witness for C8: closing `cexLedger` at 12:00. -/
theorem close_flag_and_idempotence_witness :
    cexLedger.close (some "12:00") ⟨2024, 1, 15, 12, 30, 0⟩ = .ok
      (⟨cexLedger.sessions.set (1 : Int).toNat
          ⟨sessOpen.start, some ⟨2024, 1, 15, 12, 0, 0⟩,
           sessOpen.description⟩, none⟩, true) :=
  (close_flag_and_idempotence cexLedger (some "12:00")
      ⟨2024, 1, 15, 12, 30, 0⟩ (by decide)).2.1 1 sessOpen
    (some ⟨2024, 1, 15, 12, 0, 0⟩) rfl (by decide) (by decide)

/-! ### Export aggregation: observation helpers and lemmas -/

/-- First value stored under a description key. -/
def lookupInner : List (String × ℚ) → String → Option ℚ
  | [], _ => none
  | (k, v) :: t, key => if k = key then some v else lookupInner t key

/-- Value stored under a (date, description) key pair. -/
def lookupB : Buckets → String → String → Option ℚ
  | [], _, _ => none
  | (k, inner) :: t, d, de =>
    if k = d then lookupInner inner de else lookupB t d de

/-- Date key of a session as the export computes it. -/
def dateKeyOf (s : Session) : String :=
  match s.start with
  | some st => formatDate st
  | none => ""

/-- Duration of a session in fractional hours (0 for degenerate
sessions, which the aggregation theorems exclude by hypothesis). -/
def durQ (s : Session) : ℚ :=
  match s.start, s.«end» with
  | some a, some b => durationAsHours a b
  | _, _ => 0

/-- The session belongs to the (date, description) bucket. -/
def matchesKey (d de : String) (s : Session) : Bool :=
  decide (dateKeyOf s = d) && decide (s.description = de)

/-- Total exported hours of the sessions in a (date, description)
bucket. -/
def sumKey (ss : List Session) (d de : String) : ℚ :=
  ((ss.filter (matchesKey d de)).map durQ).sum

/-- `addInner` adds to the stored value of its key and leaves every other
key alone; an absent key starts from 0. -/
theorem lookupInner_addInner (inner : List (String × ℚ)) (de : String)
    (q : ℚ) (de' : String) :
    lookupInner (addInner inner de q) de' =
      if de = de' then some ((lookupInner inner de').getD 0 + q)
      else lookupInner inner de' := by
  induction inner with
  | nil => by_cases h : de = de' <;> simp [addInner, lookupInner, h]
  | cons p t ih =>
    obtain ⟨k, v⟩ := p
    by_cases hk : k = de
    · subst hk
      by_cases h1 : k = de'
      · subst h1
        simp [addInner, lookupInner]
      · simp [addInner, lookupInner, h1]
    · by_cases h1 : k = de'
      · subst h1
        simp [addInner, lookupInner, hk, Ne.symm hk]
      · simp [addInner, lookupInner, hk, h1, ih]

/-- `aggStep` adds to the stored value of its (date, description) pair and
leaves every other pair alone; an absent pair starts from 0. -/
theorem lookupB_aggStep (b : Buckets) (d de : String) (q : ℚ)
    (d' de' : String) :
    lookupB (aggStep b d de q) d' de' =
      if d = d' ∧ de = de' then some ((lookupB b d' de').getD 0 + q)
      else lookupB b d' de' := by
  induction b with
  | nil =>
    by_cases h1 : d = d'
    · subst h1
      by_cases h2 : de = de' <;> simp [aggStep, lookupB, lookupInner, h2]
    · simp [aggStep, lookupB, h1]
  | cons p t ih =>
    obtain ⟨k, inner⟩ := p
    by_cases hk : k = d
    · subst hk
      by_cases h1 : k = d'
      · subst h1
        by_cases h2 : de = de' <;>
          simp [aggStep, lookupB, lookupInner_addInner, h2]
      · simp [aggStep, lookupB, h1]
    · by_cases h1 : k = d'
      · subst h1
        simp [aggStep, lookupB, hk, Ne.symm hk]
      · simp [aggStep, lookupB, hk, h1, ih]

/-- A successful inner lookup exhibits a stored entry. -/
theorem lookupInner_mem {inner : List (String × ℚ)} {de : String} {q : ℚ}
    (h : lookupInner inner de = some q) : (de, q) ∈ inner := by
  induction inner with
  | nil => simp [lookupInner] at h
  | cons p t ih =>
    obtain ⟨k, v⟩ := p
    by_cases hk : k = de
    · subst hk
      simp only [lookupInner, eq_self_iff_true, if_true, Option.some_inj]
        at h
      subst h
      exact List.mem_cons_self _ _
    · simp only [lookupInner, if_neg hk] at h
      exact List.mem_cons_of_mem _ (ih h)

/-- Every stored (date, description, hours) triple yields its printed
line. -/
theorem emitLines_mem {b : Buckets} {d de : String} {q : ℚ}
    (h : lookupB b d de = some q) :
    (d ++ ",," ++ de ++ "," ++ formatFix2 q) ∈ emitLines b := by
  induction b with
  | nil => simp [lookupB] at h
  | cons p t ih =>
    obtain ⟨k, inner⟩ := p
    by_cases hk : k = d
    · subst hk
      simp only [lookupB, if_pos rfl] at h
      have hmem := lookupInner_mem h
      simp only [emitLines, List.mem_append]
      left
      exact List.mem_map_of_mem _ hmem
    · simp only [lookupB, if_neg hk] at h
      simp only [emitLines, List.mem_append]
      right
      exact ih h

/-- A distinct list stays distinct when a fresh element is appended. -/
theorem nodup_append_fresh {l : List String} {d : String}
    (h : l.Nodup) (hnot : d ∉ l) : (l ++ [d]).Nodup := by
  refine List.Nodup.append h (List.nodup_singleton d) ?_
  intro a ha hd
  rw [List.mem_singleton] at hd
  subst hd
  exact hnot ha

/-- `addInner` keeps the key list, extending it only with a fresh key. -/
theorem addInner_keys (inner : List (String × ℚ)) (de : String) (q : ℚ) :
    (addInner inner de q).map Prod.fst =
      if de ∈ inner.map Prod.fst then inner.map Prod.fst
      else inner.map Prod.fst ++ [de] := by
  induction inner with
  | nil => simp [addInner]
  | cons p t ih =>
    obtain ⟨k, v⟩ := p
    by_cases hk : k = de
    · subst hk
      simp [addInner]
    · have hne : ¬ de = k := fun h => hk h.symm
      by_cases hmem : de ∈ t.map Prod.fst
      · simp [addInner, hk, ih, hmem, List.mem_cons, hne]
      · simp [addInner, hk, ih, hmem, List.mem_cons, hne]

/-- `aggStep` keeps the date-key list, extending it only with a fresh
date. -/
theorem aggStep_keys (b : Buckets) (d de : String) (q : ℚ) :
    (aggStep b d de q).map Prod.fst =
      if d ∈ b.map Prod.fst then b.map Prod.fst
      else b.map Prod.fst ++ [d] := by
  induction b with
  | nil => simp [aggStep]
  | cons p t ih =>
    obtain ⟨k, inner⟩ := p
    by_cases hk : k = d
    · subst hk
      simp [aggStep]
    · have hne : ¬ d = k := fun h => hk h.symm
      by_cases hmem : d ∈ t.map Prod.fst
      · simp [aggStep, hk, ih, hmem, List.mem_cons, hne]
      · simp [aggStep, hk, ih, hmem, List.mem_cons, hne]

/-- Distinctness of date keys and, within each date, of description keys,
is preserved by one aggregation step. -/
theorem aggStep_good (b : Buckets) (d de : String) (q : ℚ)
    (h1 : (b.map Prod.fst).Nodup)
    (h2 : ∀ p ∈ b, (p.2.map Prod.fst).Nodup) :
    ((aggStep b d de q).map Prod.fst).Nodup ∧
      ∀ p ∈ aggStep b d de q, (p.2.map Prod.fst).Nodup := by
  constructor
  · rw [aggStep_keys]
    split
    · exact h1
    · next hnot => exact nodup_append_fresh h1 hnot
  · induction b with
    | nil =>
      intro p hp
      simp [aggStep] at hp
      subst hp
      simp
    | cons p0 t ih =>
      obtain ⟨k, inner⟩ := p0
      by_cases hk : k = d
      · subst hk
        intro p hp
        simp only [aggStep, if_pos rfl] at hp
        rcases List.mem_cons.mp hp with rfl | hpt
        · have hin := h2 (k, inner) (List.mem_cons_self _ _)
          simp only at hin ⊢
          rw [addInner_keys]
          split
          · exact hin
          · next hnot => exact nodup_append_fresh hin hnot
        · exact h2 p (List.mem_cons_of_mem _ hpt)
      · intro p hp
        simp only [aggStep, if_neg hk] at hp
        rcases List.mem_cons.mp hp with rfl | hpt
        · exact h2 (k, inner) (List.mem_cons_self _ _)
        · have h1t : (t.map Prod.fst).Nodup := by
            simp only [List.map_cons] at h1
            exact (List.nodup_cons.mp h1).2
          exact ih h1t (fun u hu => h2 u (List.mem_cons_of_mem _ hu)) p hpt

/-- Key distinctness is preserved by the whole accumulation loop. -/
theorem aggLoop_good (ss : List Session) : ∀ (acc b : Buckets),
    (acc.map Prod.fst).Nodup →
    (∀ p ∈ acc, (p.2.map Prod.fst).Nodup) →
    aggLoop acc ss = .ok b →
    (b.map Prod.fst).Nodup ∧ ∀ p ∈ b, (p.2.map Prod.fst).Nodup := by
  induction ss with
  | nil =>
    intro acc b h1 h2 hok
    simp only [aggLoop, Except.ok.injEq] at hok
    subst hok
    exact ⟨h1, h2⟩
  | cons s t ih =>
    intro acc b h1 h2 hok
    cases hst : s.start with
    | none =>
      have : aggLoop acc (s :: t) = .error .attributeError := by
        simp [aggLoop, hst]
      rw [this] at hok
      cases hok
    | some st0 =>
      cases hen : s.«end» with
      | none =>
        have : aggLoop acc (s :: t) = .error .typeError := by
          simp [aggLoop, hst, hen]
        rw [this] at hok
        cases hok
      | some en0 =>
        have hstep : aggLoop acc (s :: t) =
            aggLoop (aggStep acc (formatDate st0) s.description
              (durationAsHours st0 en0)) t := by
          simp [aggLoop, hst, hen]
        rw [hstep] at hok
        obtain ⟨hg1, hg2⟩ := aggStep_good acc (formatDate st0)
          s.description (durationAsHours st0 en0) h1 h2
        exact ih _ b hg1 hg2 hok

/-- The accumulation loop computes, for every (date, description) pair,
the prior stored value plus the summed duration of the matching sessions,
creating the pair exactly when a session matches it. -/
theorem aggLoop_spec (ss : List Session) : ∀ (acc : Buckets),
    (∀ s ∈ ss, s.start.isSome = true ∧ s.«end».isSome = true) →
    ∃ b, aggLoop acc ss = .ok b ∧
      ∀ d de, lookupB b d de =
        (match lookupB acc d de with
         | some v => some (v + sumKey ss d de)
         | none =>
           if ss.any (matchesKey d de) = true
           then some (sumKey ss d de) else none) := by
  induction ss with
  | nil =>
    intro acc h
    refine ⟨acc, rfl, ?_⟩
    intro d de
    cases hl : lookupB acc d de with
    | some v => simp [sumKey, hl]
    | none => simp [sumKey, hl]
  | cons s t ih =>
    intro acc h
    obtain ⟨hst, hen⟩ := h s (by simp)
    obtain ⟨st0, hst0⟩ := Option.isSome_iff_exists.mp hst
    obtain ⟨en0, hen0⟩ := Option.isSome_iff_exists.mp hen
    have hstep : aggLoop acc (s :: t) =
        aggLoop (aggStep acc (formatDate st0) s.description
          (durationAsHours st0 en0)) t := by
      simp [aggLoop, hst0, hen0]
    obtain ⟨b, hb, hchar⟩ := ih (aggStep acc (formatDate st0) s.description
      (durationAsHours st0 en0)) (fun u hu => h u (by simp [hu]))
    refine ⟨b, by rw [hstep]; exact hb, ?_⟩
    intro d de
    rw [hchar d de, lookupB_aggStep]
    have hdk : dateKeyOf s = formatDate st0 := by simp [dateKeyOf, hst0]
    have hdq : durQ s = durationAsHours st0 en0 := by
      simp [durQ, hst0, hen0]
    by_cases hm : matchesKey d de s = true
    · have h1 : formatDate st0 = d ∧ s.description = de := by
        have := hm
        simp only [matchesKey, Bool.and_eq_true, decide_eq_true_eq]
          at this
        exact ⟨hdk ▸ this.1, this.2⟩
      rw [if_pos h1]
      have hsum : sumKey (s :: t) d de = durQ s + sumKey t d de := by
        simp [sumKey, List.filter_cons, hm]
      have hany : (s :: t).any (matchesKey d de) = true := by
        simp [List.any_cons, hm]
      cases hl : lookupB acc d de with
      | some v =>
        simp only [hl, Option.getD_some, hsum, hdq, hany]
        rw [add_assoc]
      | none =>
        simp only [hl, Option.getD_none, hsum, hdq, hany, if_true]
        rw [zero_add]
    · have hmf : matchesKey d de s = false := by
        cases hx : matchesKey d de s with
        | false => rfl
        | true => exact absurd hx hm
      have h1 : ¬(formatDate st0 = d ∧ s.description = de) := by
        intro hcontra
        apply hm
        simp only [matchesKey, Bool.and_eq_true, decide_eq_true_eq]
        exact ⟨hdk.symm ▸ hcontra.1, hcontra.2⟩
      rw [if_neg h1]
      have hsum : sumKey (s :: t) d de = sumKey t d de := by
        simp [sumKey, List.filter_cons, hmf]
      have hany : (s :: t).any (matchesKey d de)
          = t.any (matchesKey d de) := by
        simp [List.any_cons, hmf]
      rw [hsum, hany]

/-! ### C5 -/

/-- C5 (confirmed): exporting a nonempty idle ledger of fully-timed
closed sessions succeeds and prints exactly the aggregation lines: the
bucket map has one entry per (date-of-start, description) pair that
occurs among the sessions (date keys distinct, description keys distinct
within a date), whose value is the sum of `(end - start)` in fractional
hours over the matching sessions, and each entry is printed as
`"<date>,,<description>,<hours formatted to two decimals>"`. -/
theorem export_groups_and_sums (l : Sessions)
    (hne : l.sessions ≠ [])
    (hidle : l.open_session = none)
    (h : ∀ s ∈ l.sessions, s.start.isSome = true ∧ s.«end».isSome = true) :
    ∃ b, aggregate l.sessions = .ok b ∧
      exportBranch l = .ok (l, emitLines b) ∧
      (b.map Prod.fst).Nodup ∧
      (∀ p ∈ b, (p.2.map Prod.fst).Nodup) ∧
      (∀ d de, lookupB b d de =
        if l.sessions.any (matchesKey d de) = true
        then some (sumKey l.sessions d de) else none) ∧
      (∀ d de q, lookupB b d de = some q →
        (d ++ ",," ++ de ++ "," ++ formatFix2 q) ∈ emitLines b) := by
  obtain ⟨b, hb, hchar⟩ := aggLoop_spec l.sessions [] h
  have hagg : aggregate l.sessions = .ok b := hb
  have hempty : l.sessions.isEmpty = false := by
    cases hss : l.sessions with
    | nil => exact absurd hss hne
    | cons a t => rfl
  refine ⟨b, hagg, ?_, ?_, ?_, ?_, ?_⟩
  · simp [exportBranch, hidle, hempty, hagg]
  · exact (aggLoop_good l.sessions [] b (by simp) (by simp) hb).1
  · exact (aggLoop_good l.sessions [] b (by simp) (by simp) hb).2
  · intro d de
    simpa [lookupB] using hchar d de
  · intro d de q hq
    exact emitLines_mem hq

/-- Witness for C5 at the spec §8 example ledger: two same-date `coding`
sessions, 09:00-10:00 and 10:30-11:00, export as the single line with
1.50 hours. -/
theorem export_groups_and_sums_witness :
    closedLedger.sessions ≠ [] ∧
    closedLedger.open_session = none ∧
    (∀ s ∈ closedLedger.sessions,
      s.start.isSome = true ∧ s.«end».isSome = true) ∧
    (∃ b, aggregate closedLedger.sessions = .ok b ∧
      exportBranch closedLedger = .ok (closedLedger, emitLines b) ∧
      (b.map Prod.fst).Nodup ∧
      (∀ p ∈ b, (p.2.map Prod.fst).Nodup) ∧
      (∀ d de, lookupB b d de =
        if closedLedger.sessions.any (matchesKey d de) = true
        then some (sumKey closedLedger.sessions d de) else none) ∧
      (∀ d de q, lookupB b d de = some q →
        (d ++ ",," ++ de ++ "," ++ formatFix2 q) ∈ emitLines b)) ∧
    exportBranch closedLedger
      = .ok (closedLedger, ["2024-01-15,,coding,1.50"]) :=
  ⟨by decide, rfl, by decide,
   export_groups_and_sums closedLedger (by decide) rfl (by decide),
   by with_unfolding_all decide⟩

/-! ### Invariant preservation lemmas -/

/-- Removing any position from an all-closed list keeps it all closed. -/
theorem allClosed_eraseIdx : ∀ (ss : List Session) (c : Nat),
    ss.all sessionClosed = true →
    (ss.eraseIdx c).all sessionClosed = true := by
  intro ss
  induction ss with
  | nil => intro c h; simp [List.eraseIdx]
  | cons u t ih =>
    intro c h
    simp only [List.all_cons, Bool.and_eq_true] at h
    cases c with
    | zero => simpa [List.eraseIdx] using h.2
    | succ c =>
      simp only [List.eraseIdx, List.all_cons, Bool.and_eq_true]
      exact ⟨h.1, ih c h.2⟩

/-- Removing the open position leaves only closed sessions. -/
theorem onlyOpenAt_eraseIdx_self : ∀ (ss : List Session) (k : Nat),
    onlyOpenAt ss k = true →
    (ss.eraseIdx k).all sessionClosed = true := by
  intro ss
  induction ss with
  | nil => intro k h; simp [onlyOpenAt] at h
  | cons u t ih =>
    intro k h
    cases k with
    | zero =>
      simp only [onlyOpenAt, Bool.and_eq_true] at h
      simpa [List.eraseIdx] using h.2
    | succ k =>
      simp only [onlyOpenAt, Bool.and_eq_true] at h
      simp only [List.eraseIdx, List.all_cons, Bool.and_eq_true]
      exact ⟨h.1, ih k h.2⟩

/-- Removing a position below the open one shifts it down by one. -/
theorem onlyOpenAt_eraseIdx_lt : ∀ (ss : List Session) (i k : Nat),
    i < k → onlyOpenAt ss k = true →
    onlyOpenAt (ss.eraseIdx i) (k - 1) = true := by
  intro ss
  induction ss with
  | nil => intro i k hik h; simp [onlyOpenAt] at h
  | cons u t ih =>
    intro i k hik h
    cases i with
    | zero =>
      cases k with
      | zero => omega
      | succ k1 =>
        simp only [onlyOpenAt, Bool.and_eq_true] at h
        simpa [List.eraseIdx] using h.2
    | succ i1 =>
      cases k with
      | zero => omega
      | succ k1 =>
        simp only [onlyOpenAt, Bool.and_eq_true] at h
        cases k1 with
        | zero => omega
        | succ j =>
          simp only [List.eraseIdx, Nat.succ_sub_one, onlyOpenAt,
            Bool.and_eq_true]
          refine ⟨h.1, ?_⟩
          have hrec := ih i1 (j + 1) (by omega) h.2
          simpa [Nat.succ_sub_one] using hrec

/-- Removing a position above the open one leaves it in place. -/
theorem onlyOpenAt_eraseIdx_gt : ∀ (ss : List Session) (i k : Nat),
    k < i → onlyOpenAt ss k = true →
    onlyOpenAt (ss.eraseIdx i) k = true := by
  intro ss
  induction ss with
  | nil => intro i k hik h; simp [onlyOpenAt] at h
  | cons u t ih =>
    intro i k hik h
    cases i with
    | zero => omega
    | succ i1 =>
      cases k with
      | zero =>
        simp only [onlyOpenAt, Bool.and_eq_true] at h
        simp only [List.eraseIdx, onlyOpenAt, Bool.and_eq_true]
        exact ⟨h.1, allClosed_eraseIdx t i1 h.2⟩
      | succ k1 =>
        simp only [onlyOpenAt, Bool.and_eq_true] at h
        simp only [List.eraseIdx, onlyOpenAt, Bool.and_eq_true]
        exact ⟨h.1, ih i1 k1 (by omega) h.2⟩

/-- Appending an end-less session to an all-closed list makes its
position the unique open one. -/
theorem allClosed_append_open : ∀ (ss : List Session) (s : Session),
    ss.all sessionClosed = true → s.«end» = none →
    onlyOpenAt (ss ++ [s]) ss.length = true := by
  intro ss
  induction ss with
  | nil =>
    intro s h hs
    simp [onlyOpenAt, hs]
  | cons u t ih =>
    intro s h hs
    simp only [List.all_cons, Bool.and_eq_true] at h
    simp only [List.cons_append, List.length_cons, onlyOpenAt,
      Bool.and_eq_true]
    exact ⟨h.1, ih s h.2 hs⟩

/-- Appending a closed session does not disturb the unique open
position. -/
theorem onlyOpenAt_append_closed : ∀ (ss : List Session) (k : Nat)
    (s : Session), onlyOpenAt ss k = true → sessionClosed s = true →
    onlyOpenAt (ss ++ [s]) k = true := by
  intro ss
  induction ss with
  | nil => intro k s h hs; simp [onlyOpenAt] at h
  | cons u t ih =>
    intro k s h hs
    cases k with
    | zero =>
      simp only [onlyOpenAt, Bool.and_eq_true] at h
      simp only [List.cons_append, onlyOpenAt, Bool.and_eq_true]
      exact ⟨h.1, by simp [List.all_append, h.2, hs]⟩
    | succ k =>
      simp only [onlyOpenAt, Bool.and_eq_true] at h
      simp only [List.cons_append, onlyOpenAt, Bool.and_eq_true]
      exact ⟨h.1, ih k s h.2 hs⟩

/-- Overwriting the open position with a closed session closes
everything. -/
theorem onlyOpenAt_set_closed : ∀ (ss : List Session) (k : Nat)
    (s1 : Session), onlyOpenAt ss k = true → sessionClosed s1 = true →
    (ss.set k s1).all sessionClosed = true := by
  intro ss
  induction ss with
  | nil => intro k s1 h hs; simp [onlyOpenAt] at h
  | cons u t ih =>
    intro k s1 h hs
    cases k with
    | zero =>
      simp only [onlyOpenAt, Bool.and_eq_true] at h
      show (s1 :: t).all sessionClosed = true
      simp only [List.all_cons, Bool.and_eq_true]
      exact ⟨hs, h.2⟩
    | succ k =>
      simp only [onlyOpenAt, Bool.and_eq_true] at h
      show (u :: t.set k s1).all sessionClosed = true
      simp only [List.all_cons, Bool.and_eq_true]
      exact ⟨h.1, ih k s1 h.2 hs⟩

/-- Replacing a session with one sharing its end keeps the all-closed
observation unchanged. -/
theorem allClosed_set_sameEnd : ∀ (ss : List Session) (c : Nat)
    (s s1 : Session), ss.get? c = some s → s1.«end» = s.«end» →
    (ss.set c s1).all sessionClosed = ss.all sessionClosed := by
  intro ss
  induction ss with
  | nil => intro c s s1 hget hend; simp at hget
  | cons u t ih =>
    intro c s s1 hget hend
    cases c with
    | zero =>
      simp only [List.get?_cons_zero, Option.some_inj] at hget
      subst hget
      show (s1 :: t).all sessionClosed = (u :: t).all sessionClosed
      simp [List.all_cons, sessionClosed, hend]
    | succ c =>
      simp only [List.get?_cons_succ] at hget
      show (u :: t.set c s1).all sessionClosed = _
      simp [List.all_cons, ih c s s1 hget hend]

/-- Replacing a session with one sharing its end keeps the unique-open
observation unchanged. -/
theorem onlyOpenAt_set_sameEnd : ∀ (ss : List Session) (c : Nat)
    (s s1 : Session) (k : Nat), ss.get? c = some s →
    s1.«end» = s.«end» →
    onlyOpenAt (ss.set c s1) k = onlyOpenAt ss k := by
  intro ss
  induction ss with
  | nil => intro c s s1 k hget hend; simp at hget
  | cons u t ih =>
    intro c s s1 k hget hend
    cases c with
    | zero =>
      simp only [List.get?_cons_zero, Option.some_inj] at hget
      subst hget
      cases k with
      | zero =>
        show onlyOpenAt (s1 :: t) 0 = onlyOpenAt (u :: t) 0
        simp [onlyOpenAt, hend]
      | succ k =>
        show onlyOpenAt (s1 :: t) (k + 1) = onlyOpenAt (u :: t) (k + 1)
        simp [onlyOpenAt, hend]
    | succ c =>
      simp only [List.get?_cons_succ] at hget
      cases k with
      | zero =>
        show onlyOpenAt (u :: t.set c s1) 0 = _
        simp [onlyOpenAt, allClosed_set_sameEnd t c s s1 hget hend]
      | succ k =>
        show onlyOpenAt (u :: t.set c s1) (k + 1) = _
        simp [onlyOpenAt, ih c s s1 k hget hend]

/-- What a successful Python index canonicalisation of a nonnegative
index means. -/
theorem pyIndex_nonneg_inv {n : Nat} {i : Int} {c : Nat} (hi : 0 ≤ i)
    (h : pyIndex n i = some c) : c = i.toNat ∧ i.toNat < n := by
  have h1 : ¬ i < 0 := by omega
  simp only [pyIndex, h1, if_false] at h
  split at h
  · next hcond =>
    simp only [Option.some_inj] at h
    exact ⟨h.symm, by omega⟩
  · cases h

/-- C2 (amended): every dispatched ledger operation that completes
without an exception preserves the ledger invariant, provided `delete`
receives a nonnegative index and the resolved end timestamp of
`close`/`log` is concrete (`opProviso`); `delete` with an accepted
negative index can break the invariant, as the counterexample shows. -/
theorem ops_preserve_invariant (op : Op) (l l' : Sessions)
    (hInv : l.inv = true) (hprov : opProviso op l = true)
    (hok : applyOp op l = .ok l') : l'.inv = true := by
  cases op with
  | startO d arg now =>
    cases hcase : l.open_session with
    | some z =>
      cases hpg : pyGet l.sessions z with
      | error e =>
        have heq : applyOp (.startO d arg now) l = .error e := by
          simp [applyOp, Sessions.start, hcase, hpg]
        rw [heq] at hok; cases hok
      | ok s0 =>
        cases hstr : s0.str with
        | error e =>
          have heq : applyOp (.startO d arg now) l = .error e := by
            simp [applyOp, Sessions.start, hcase, hpg, hstr]
          rw [heq] at hok; cases hok
        | ok r =>
          have heq : applyOp (.startO d arg now) l
              = .error .alreadyOpen := by
            simp [applyOp, Sessions.start, hcase, hpg, hstr]
          rw [heq] at hok; cases hok
    | none =>
      cases hres : l.resolveOptTime arg now with
      | error e =>
        have heq : applyOp (.startO d arg now) l = .error e := by
          simp [applyOp, Sessions.start, hcase, hres]
        rw [heq] at hok; cases hok
      | ok st =>
        have heq : applyOp (.startO d arg now) l
            = .ok ⟨l.sessions ++ [⟨st, none, d⟩],
                   some (l.sessions.length : Int)⟩ := by
          simp [applyOp, Sessions.start, hcase, hres]
        rw [heq] at hok
        cases hok
        have hall : l.sessions.all sessionClosed = true := by
          simpa [Sessions.inv, hcase] using hInv
        simp only [Sessions.inv, Bool.and_eq_true, decide_eq_true_eq]
        refine ⟨by omega, ?_⟩
        have happ := allClosed_append_open l.sessions ⟨st, none, d⟩ hall rfl
        rw [Int.toNat_natCast]
        exact happ
  | closeO arg now =>
    cases hcl : l.close arg now with
    | error e =>
      have heq : applyOp (.closeO arg now) l = .error e := by
        simp [applyOp, hcl]
      rw [heq] at hok; cases hok
    | ok p =>
      have heq : applyOp (.closeO arg now) l = .ok p.1 := by
        simp [applyOp, hcl]
      rw [heq] at hok
      cases hok
      cases hcase : l.open_session with
      | none =>
        have heq2 : l.close arg now = .ok (l, false) := by
          simp [Sessions.close, hcase]
        rw [heq2] at hcl
        cases hcl
        exact hInv
      | some z =>
        have hz0 : 0 ≤ z ∧ onlyOpenAt l.sessions z.toNat = true := by
          simpa [Sessions.inv, hcase, Bool.and_eq_true,
            decide_eq_true_eq] using hInv
        cases hpg : pyGet l.sessions z with
        | error e =>
          have heq2 : l.close arg now = .error e := by
            simp [Sessions.close, hcase, hpg]
          rw [heq2] at hcl
          cases hcl
        | ok s0 =>
          cases hres : l.resolveOptTime arg now with
          | error e =>
            have heq2 : l.close arg now = .error e := by
              simp [Sessions.close, hcase, hpg, hres]
            rw [heq2] at hcl
            cases hcl
          | ok eo =>
            cases eo with
            | none =>
              have hfalse : opProviso (.closeO arg now) l = false := by
                simp [opProviso, hres]
              rw [hfalse] at hprov
              cases hprov
            | some e0 =>
              have hlt : z.toNat < l.sessions.length := onlyOpenAt_lt hz0.2
              have hps := @pySet_toNat l.sessions z
                ⟨s0.start, some e0, s0.description⟩ hz0.1 hlt
              have heq2 : l.close arg now = .ok
                  (⟨l.sessions.set z.toNat
                      ⟨s0.start, some e0, s0.description⟩, none⟩,
                   true) := by
                simp [Sessions.close, hcase, hpg, hres, hps]
              rw [heq2] at hcl
              cases hcl
              simp only [Sessions.inv]
              exact onlyOpenAt_set_closed l.sessions z.toNat _ hz0.2 rfl
  | logO s e dsc now =>
    cases hts : l.time_to_datetime s now with
    | error er =>
      have heq : applyOp (.logO s e dsc now) l = .error er := by
        simp [applyOp, Sessions.log, hts]
      rw [heq] at hok; cases hok
    | ok st =>
      cases hte : l.time_to_datetime e now with
      | error er =>
        have heq : applyOp (.logO s e dsc now) l = .error er := by
          simp [applyOp, Sessions.log, hts, hte]
        rw [heq] at hok; cases hok
      | ok en =>
        cases en with
        | none =>
          have hfalse : opProviso (.logO s e dsc now) l = false := by
            simp [opProviso, hte]
          rw [hfalse] at hprov
          cases hprov
        | some en0 =>
          have heq : applyOp (.logO s e dsc now) l
              = .ok ⟨l.sessions ++ [⟨st, some en0, dsc⟩],
                     l.open_session⟩ := by
            simp [applyOp, Sessions.log, hts, hte]
          rw [heq] at hok
          cases hok
          cases hcase : l.open_session with
          | none =>
            have hall : l.sessions.all sessionClosed = true := by
              simpa [Sessions.inv, hcase] using hInv
            simp only [Sessions.inv]
            simp [List.all_append, hall, sessionClosed]
          | some z =>
            have hz0 : 0 ≤ z ∧ onlyOpenAt l.sessions z.toNat = true := by
              simpa [Sessions.inv, hcase, Bool.and_eq_true,
                decide_eq_true_eq] using hInv
            simp only [Sessions.inv, Bool.and_eq_true, decide_eq_true_eq]
            exact ⟨hz0.1,
              onlyOpenAt_append_closed l.sessions z.toNat _ hz0.2 rfl⟩
  | deleteO i =>
    have hi : 0 ≤ i := by simpa [opProviso] using hprov
    cases hpi : pyIndex l.sessions.length i with
    | none =>
      have heq : applyOp (.deleteO i) l = .error .indexError := by
        simp [applyOp, Sessions.remove, pyDel, hpi]
      rw [heq] at hok; cases hok
    | some c =>
      obtain ⟨hc, hclt⟩ := pyIndex_nonneg_inv hi hpi
      subst hc
      have heq : applyOp (.deleteO i) l = .ok
          ⟨l.sessions.eraseIdx i.toNat,
           match l.open_session with
           | none => none
           | some z =>
             if z = i then none
             else if i < z then some (z - 1)
             else some z⟩ := by
        simp [applyOp, Sessions.remove, pyDel, hpi]
      rw [heq] at hok
      cases hok
      cases hcase : l.open_session with
      | none =>
        have hall : l.sessions.all sessionClosed = true := by
          simpa [Sessions.inv, hcase] using hInv
        simp only [Sessions.inv]
        exact allClosed_eraseIdx _ _ hall
      | some z =>
        have hz0 : 0 ≤ z ∧ onlyOpenAt l.sessions z.toNat = true := by
          simpa [Sessions.inv, hcase, Bool.and_eq_true,
            decide_eq_true_eq] using hInv
        show (Sessions.mk (l.sessions.eraseIdx i.toNat)
          (if z = i then none
           else if i < z then some (z - 1) else some z)).inv = true
        by_cases hzi : z = i
        · rw [if_pos hzi]
          simp only [Sessions.inv]
          have homega : i.toNat = z.toNat := by omega
          rw [homega]
          exact onlyOpenAt_eraseIdx_self _ _ hz0.2
        · by_cases hlt2 : i < z
          · rw [if_neg hzi, if_pos hlt2]
            simp only [Sessions.inv, Bool.and_eq_true, decide_eq_true_eq]
            refine ⟨by omega, ?_⟩
            have htn : (z - 1).toNat = z.toNat - 1 := by omega
            rw [htn]
            exact onlyOpenAt_eraseIdx_lt _ _ _ (by omega) hz0.2
          · rw [if_neg hzi, if_neg hlt2]
            simp only [Sessions.inv, Bool.and_eq_true, decide_eq_true_eq]
            exact ⟨hz0.1,
              onlyOpenAt_eraseIdx_gt _ _ _ (by omega) hz0.2⟩
  | cancelO =>
    cases hcase : l.open_session with
    | none =>
      have heq : applyOp .cancelO l = .ok l := by
        simp [applyOp, cancelBranch, hcase]
      rw [heq] at hok
      cases hok
      exact hInv
    | some z =>
      have hz0 : 0 ≤ z ∧ onlyOpenAt l.sessions z.toNat = true := by
        simpa [Sessions.inv, hcase, Bool.and_eq_true,
          decide_eq_true_eq] using hInv
      have hlt : z.toNat < l.sessions.length := onlyOpenAt_lt hz0.2
      have hpi : pyIndex l.sessions.length z = some z.toNat :=
        pyIndex_toNat hz0.1 hlt
      have heq : applyOp .cancelO l = .ok
          ⟨l.sessions.eraseIdx z.toNat, none⟩ := by
        simp [applyOp, cancelBranch, hcase, Sessions.remove, pyDel, hpi]
      rw [heq] at hok
      cases hok
      simp only [Sessions.inv]
      exact onlyOpenAt_eraseIdx_self _ _ hz0.2
  | amendO idx dsc =>
    cases hpg : pyGet l.sessions (idx.getD (-1)) with
    | error e =>
      have heq : applyOp (.amendO idx dsc) l = .error e := by
        simp [applyOp, amendBranch, hpg]
      rw [heq] at hok; cases hok
    | ok s0 =>
      cases hpi : pyIndex l.sessions.length (idx.getD (-1)) with
      | none =>
        have hbad : pyGet l.sessions (idx.getD (-1))
            = .error .indexError := by
          simp [pyGet, hpi]
        rw [hbad] at hpg
        cases hpg
      | some c =>
        have hget : l.sessions.get? c = some s0 := by
          cases hg2 : l.sessions.get? c with
          | none =>
            have hg2e : l.sessions[c]? = none := by
              rw [← List.get?_eq_getElem?]; exact hg2
            have hbad : pyGet l.sessions (idx.getD (-1))
                = .error .indexError := by
              simp [pyGet, hpi, hg2e]
            rw [hbad] at hpg
            cases hpg
          | some s1 =>
            have hg2e : l.sessions[c]? = some s1 := by
              rw [← List.get?_eq_getElem?]; exact hg2
            have hgd : pyGet l.sessions (idx.getD (-1)) = .ok s1 := by
              simp [pyGet, hpi, hg2e]
            rw [hgd] at hpg
            injection hpg with hss
            rw [hss]
        have hps : pySet l.sessions (idx.getD (-1))
              ⟨s0.start, s0.«end», dsc⟩
            = .ok (l.sessions.set c ⟨s0.start, s0.«end», dsc⟩) := by
          simp [pySet, hpi]
        have heq : applyOp (.amendO idx dsc) l = .ok
            ⟨l.sessions.set c ⟨s0.start, s0.«end», dsc⟩,
             l.open_session⟩ := by
          simp [applyOp, amendBranch, hpg, hps]
        rw [heq] at hok
        cases hok
        cases hcase : l.open_session with
        | none =>
          have hall : l.sessions.all sessionClosed = true := by
            simpa [Sessions.inv, hcase] using hInv
          simp only [Sessions.inv]
          rw [allClosed_set_sameEnd l.sessions c s0
            ⟨s0.start, s0.«end», dsc⟩ hget rfl]
          exact hall
        | some z =>
          have hz0 : 0 ≤ z ∧ onlyOpenAt l.sessions z.toNat = true := by
            simpa [Sessions.inv, hcase, Bool.and_eq_true,
              decide_eq_true_eq] using hInv
          simp only [Sessions.inv, Bool.and_eq_true, decide_eq_true_eq]
          refine ⟨hz0.1, ?_⟩
          rw [onlyOpenAt_set_sameEnd l.sessions c s0
            ⟨s0.start, s0.«end», dsc⟩ z.toNat hget rfl]
          exact hz0.2
  | clearO =>
    have heq : applyOp .clearO l = .ok ⟨[], none⟩ := by
      simp [applyOp, Sessions.clear]
    rw [heq] at hok
    cases hok
    rfl

/-- Witness for the amended C2: deleting index 0 from a one-session idle
ledger preserves the invariant. -/
theorem ops_preserve_invariant_witness :
    (Sessions.mk [sessA] none).inv = true ∧
    opProviso (.deleteO 0) (Sessions.mk [sessA] none) = true ∧
    applyOp (.deleteO 0) (Sessions.mk [sessA] none) = .ok ⟨[], none⟩ ∧
    (Sessions.mk ([] : List Session) none).inv = true :=
  ⟨by decide, by decide, by decide,
   ops_preserve_invariant (.deleteO 0) (Sessions.mk [sessA] none)
     ⟨[], none⟩ (by decide) (by decide) (by decide)⟩
